import Mathlib

/-!
Verification of the Utf8 codec (src/src/Utf8.cpp).

The source is a small UTF-8 codec class: `Encode` turns a sequence of
Unicode code points into UTF-8 bytes, per code point and independently
of any state; `Decode` is a stateful byte-at-a-time state machine that
reassembles code points across arbitrarily chunked input.  Code points
are `uint32_t` values, modelled here as `Nat` with an explicit
`% 2 ^ 32` at the one place the accumulator arithmetic could wrap;
bytes are `uint8_t`, modelled as `Nat` known to be below 256 where a
claim needs it.
-/

namespace Utf8

/-- The Unicode replacement character encoded as UTF-8
(UTF8_ENCODED_REPLACEMENT_CHARACTER in Utf8.cpp). -/
def UTF8_ENCODED_REPLACEMENT_CHARACTER : List Nat := [0xEF, 0xBF, 0xBD]

/-- The Unicode replacement character as a code point
(REPLACEMENT_CHARACTER in Utf8.cpp). -/
def REPLACEMENT_CHARACTER : Nat := 0xFFFD

/-- First UTF-16 surrogate half (FIRST_SURROGATE in Utf8.cpp). -/
def FIRST_SURROGATE : Nat := 0xD800

/-- Last UTF-16 surrogate half (LAST_SURROGATE in Utf8.cpp). -/
def LAST_SURROGATE : Nat := 0xDFFF

/-- The last legal Unicode code point
(LAST_LEGAL_UNICODE_CODE_POINT in Utf8.cpp). -/
def LAST_LEGAL_UNICODE_CODE_POINT : Nat := 0x10FFFF

/-- The log2n helper of Utf8.cpp: counts loop iterations of
`while (integer > 0) { ++answer; integer >>= 1; }`, i.e. the number of
binary digits of the argument. -/
def log2n (integer : Nat) : Nat :=
  if h : integer > 0 then log2n (integer >>> 1) + 1 else 0
termination_by integer
decreasing_by
  simp only [Nat.shiftRight_eq_div_pow, pow_one]
  omega

/-- Utf8::AsciiToUnicode: widens each 8-bit character of the input
string into a UnicodeCodePoint, element by element
(`std::vector<UnicodeCodePoint>(ascii.begin(), ascii.end())`). -/
def AsciiToUnicode (ascii : List Nat) : List Nat :=
  ascii.map (fun c => c)

/-- The private properties of a Utf8 instance (struct Utf8::Impl):
the partially assembled code point and the number of continuation
bytes still expected.  Both are zero at construction. -/
structure Impl where
  currentCharacterBeingDecoded : Nat := 0
  numBytesRemainingToDecode : Nat := 0
  deriving DecidableEq, Repr

/-- The body of the per-code-point loop in Utf8::Encode. -/
def encodeOne (codePoint : Nat) : List Nat :=
  let numBits := log2n codePoint
  if numBits ≤ 7 then
    [codePoint &&& 0x7F]
  else if numBits ≤ 11 then
    [((codePoint >>> 6) &&& 0x1F) + 0xC0,
     (codePoint &&& 0x3F) + 0x80]
  else if numBits ≤ 16 then
    if FIRST_SURROGATE ≤ codePoint ∧ codePoint ≤ LAST_SURROGATE then
      UTF8_ENCODED_REPLACEMENT_CHARACTER
    else
      [((codePoint >>> 12) &&& 0x0F) + 0xE0,
       ((codePoint >>> 6) &&& 0x3F) + 0x80,
       (codePoint &&& 0x3F) + 0x80]
  else if numBits ≤ 21 ∧ codePoint ≤ LAST_LEGAL_UNICODE_CODE_POINT then
    [((codePoint >>> 18) &&& 0x07) + 0xF0,
     ((codePoint >>> 12) &&& 0x3F) + 0x80,
     ((codePoint >>> 6) &&& 0x3F) + 0x80,
     (codePoint &&& 0x3F) + 0x80]
  else
    UTF8_ENCODED_REPLACEMENT_CHARACTER

/-- Utf8::Encode: the per-code-point byte groups appended in input
order into one output vector. -/
def Encode : List Nat → List Nat
  | [] => []
  | codePoint :: rest => encodeOne codePoint ++ Encode rest

/-- The body of the per-octet loop in Utf8::Decode: given the instance
state and one input octet, the updated state and the code points
emitted for that octet.  The accumulator is a uint32, so the
shift-and-add wraps modulo 2 ^ 32. -/
def decodeOctet (s : Impl) (octet : Nat) : Impl × List Nat :=
  if s.numBytesRemainingToDecode = 0 then
    if octet &&& 0x80 = 0 then
      (s, [octet])
    else if octet &&& 0xE0 = 0xC0 then
      ({ currentCharacterBeingDecoded := octet &&& 0x1F,
         numBytesRemainingToDecode := 1 }, [])
    else if octet &&& 0xF0 = 0xE0 then
      ({ currentCharacterBeingDecoded := octet &&& 0x0F,
         numBytesRemainingToDecode := 2 }, [])
    else if octet &&& 0xF8 = 0xF0 then
      ({ currentCharacterBeingDecoded := octet &&& 0x07,
         numBytesRemainingToDecode := 3 }, [])
    else
      (s, [REPLACEMENT_CHARACTER])
  else
    let acc :=
      ((s.currentCharacterBeingDecoded <<< 6) + (octet &&& 0x3F)) % 4294967296
    if s.numBytesRemainingToDecode - 1 = 0 then
      ({ currentCharacterBeingDecoded := 0,
         numBytesRemainingToDecode := 0 }, [acc])
    else
      ({ currentCharacterBeingDecoded := acc,
         numBytesRemainingToDecode := s.numBytesRemainingToDecode - 1 }, [])

/-- Utf8::Decode: one call on an instance in state `s`, folding
`decodeOctet` over the input bytes and appending the emitted code
points in order.  Returns the final instance state and the output. -/
def Decode : Impl → List Nat → Impl × List Nat
  | s, [] => (s, [])
  | s, octet :: rest =>
    let step := decodeOctet s octet
    let restResult := Decode step.1 rest
    (restResult.1, step.2 ++ restResult.2)

/-- Several successive calls of Utf8::Decode on one instance, one call
per chunk, with the outputs concatenated in call order. -/
def decodeChunks : Impl → List (List Nat) → Impl × List Nat
  | s, [] => (s, [])
  | s, chunk :: rest =>
    let call := Decode s chunk
    let restResult := decodeChunks call.1 rest
    (restResult.1, call.2 ++ restResult.2)

/-- Utf8::Encode as a member function acting on an instance: its body
never reads or writes impl_, so the instance state passes through the
call untouched and the bytes depend only on the code points. -/
def EncodeOnInstance (s : Impl) (codePoints : List Nat) : Impl × List Nat :=
  (s, Encode codePoints)

/-- The UTF-8 byte layout for valid scalar values exactly as the spec
words it (RFC 3629 byte-pattern table), written with division and
remainder.  Used only to compare `Encode` against the spec wording. -/
def specUtf8Bytes (cp : Nat) : List Nat :=
  if cp ≤ 0x7F then
    [cp]
  else if cp ≤ 0x7FF then
    [cp / 64 + 0xC0, cp % 64 + 0x80]
  else if cp ≤ 0xFFFF then
    [cp / 4096 + 0xE0, cp / 64 % 64 + 0x80, cp % 64 + 0x80]
  else
    [cp / 262144 + 0xF0, cp / 4096 % 64 + 0x80, cp / 64 % 64 + 0x80,
     cp % 64 + 0x80]

/-- The states a codec instance can reach: at most three continuation
bytes outstanding, an accumulator small enough that finishing the
sequence stays below 2 ^ 21, and an accumulator of zero when idle. -/
def DecodeStateInv (s : Impl) : Prop :=
  s.numBytesRemainingToDecode ≤ 3 ∧
  s.currentCharacterBeingDecoded * 64 ^ s.numBytesRemainingToDecode
    < 0x200000 ∧
  (s.numBytesRemainingToDecode = 0 → s.currentCharacterBeingDecoded = 0)

/-! ### Helper lemmas: log2n and bit arithmetic -/

/-- log2n counts binary digits: it is at most `k` exactly when the
argument is below `2 ^ k`. -/
theorem log2n_le_iff (k : Nat) : ∀ n, log2n n ≤ k ↔ n < 2 ^ k := by
  induction k with
  | zero =>
    intro n
    rw [log2n, pow_zero]
    by_cases h : n > 0
    · rw [dif_pos h]
      omega
    · rw [dif_neg h]
      omega
  | succ k ih =>
    intro n
    rw [log2n]
    by_cases h : n > 0
    · rw [dif_pos h]
      have step : log2n (n >>> 1) + 1 ≤ k + 1 ↔ log2n (n >>> 1) ≤ k := by
        omega
      rw [step, ih, Nat.shiftRight_eq_div_pow, pow_one,
        Nat.div_lt_iff_lt_mul (by norm_num), ← pow_succ]
    · rw [dif_neg h]
      have hn : n = 0 := by omega
      subst hn
      simp [Nat.pos_pow_of_pos]

theorem and_127 (x : Nat) : x &&& 127 = x % 128 := by
  have h := Nat.and_pow_two_sub_one_eq_mod x 7
  norm_num at h
  exact h

theorem and_63 (x : Nat) : x &&& 63 = x % 64 := by
  have h := Nat.and_pow_two_sub_one_eq_mod x 6
  norm_num at h
  exact h

theorem and_31 (x : Nat) : x &&& 31 = x % 32 := by
  have h := Nat.and_pow_two_sub_one_eq_mod x 5
  norm_num at h
  exact h

theorem and_15 (x : Nat) : x &&& 15 = x % 16 := by
  have h := Nat.and_pow_two_sub_one_eq_mod x 4
  norm_num at h
  exact h

theorem and_7 (x : Nat) : x &&& 7 = x % 8 := by
  have h := Nat.and_pow_two_sub_one_eq_mod x 3
  norm_num at h
  exact h

theorem sr6 (x : Nat) : x >>> 6 = x / 64 := by
  rw [Nat.shiftRight_eq_div_pow]

theorem sr12 (x : Nat) : x >>> 12 = x / 4096 := by
  rw [Nat.shiftRight_eq_div_pow]

theorem sr18 (x : Nat) : x >>> 18 = x / 262144 := by
  rw [Nat.shiftRight_eq_div_pow]

theorem sl6 (x : Nat) : x <<< 6 = x * 64 := by
  rw [Nat.shiftLeft_eq]

/-- Classification facts for a 2-byte lead byte `q + 0xC0`, `q < 32`. -/
theorem byte_facts_lead2 : ∀ q < 32,
    (q + 0xC0) &&& 0x80 ≠ 0 ∧ (q + 0xC0) &&& 0xE0 = 0xC0 ∧
    (q + 0xC0) &&& 0x1F = q := by decide

/-- Classification facts for a 3-byte lead byte `q + 0xE0`, `q < 16`. -/
theorem byte_facts_lead3 : ∀ q < 16,
    (q + 0xE0) &&& 0x80 ≠ 0 ∧ (q + 0xE0) &&& 0xE0 ≠ 0xC0 ∧
    (q + 0xE0) &&& 0xF0 = 0xE0 ∧ (q + 0xE0) &&& 0x0F = q := by decide

/-- Classification facts for a 4-byte lead byte `q + 0xF0`, `q < 8`. -/
theorem byte_facts_lead4 : ∀ q < 8,
    (q + 0xF0) &&& 0x80 ≠ 0 ∧ (q + 0xF0) &&& 0xE0 ≠ 0xC0 ∧
    (q + 0xF0) &&& 0xF0 ≠ 0xE0 ∧ (q + 0xF0) &&& 0xF8 = 0xF0 ∧
    (q + 0xF0) &&& 0x07 = q := by decide

/-- A continuation byte `r + 0x80`, `r < 64`, contributes its low six
bits. -/
theorem byte_facts_cont : ∀ r < 64, (r + 0x80) &&& 0x3F = r := by decide

/-! ### Decoding well-formed multi-byte sequences from the idle state -/

/-- Decoding a well-formed 2-byte sequence from a fresh instance emits
the assembled value and returns to the fresh state. -/
theorem decode_seq2 (q r : Nat) (hq : q < 32) (hr : r < 64) :
    Decode ⟨0, 0⟩ [q + 0xC0, r + 0x80] = (⟨0, 0⟩, [q * 64 + r]) := by
  have f := byte_facts_lead2 q hq
  have c := byte_facts_cont r hr
  simp [Decode, decodeOctet, f.1, f.2.1, f.2.2, c, sl6,
    Nat.mod_eq_of_lt (show q * 64 + r < 4294967296 by omega)]

/-- Decoding a well-formed 3-byte sequence from a fresh instance emits
the assembled value and returns to the fresh state. -/
theorem decode_seq3 (q r1 r2 : Nat) (hq : q < 16) (h1 : r1 < 64)
    (h2 : r2 < 64) :
    Decode ⟨0, 0⟩ [q + 0xE0, r1 + 0x80, r2 + 0x80] =
      (⟨0, 0⟩, [(q * 64 + r1) * 64 + r2]) := by
  have f := byte_facts_lead3 q hq
  have c1 := byte_facts_cont r1 h1
  have c2 := byte_facts_cont r2 h2
  simp [Decode, decodeOctet, f.1, f.2.1, f.2.2.1, f.2.2.2, c1, c2, sl6,
    Nat.mod_eq_of_lt (show q * 64 + r1 < 4294967296 by omega),
    Nat.mod_eq_of_lt (show (q * 64 + r1) * 64 + r2 < 4294967296 by nlinarith)]

/-- Decoding a well-formed 4-byte sequence from a fresh instance emits
the assembled value and returns to the fresh state. -/
theorem decode_seq4 (q r1 r2 r3 : Nat) (hq : q < 8) (h1 : r1 < 64)
    (h2 : r2 < 64) (h3 : r3 < 64) :
    Decode ⟨0, 0⟩ [q + 0xF0, r1 + 0x80, r2 + 0x80, r3 + 0x80] =
      (⟨0, 0⟩, [((q * 64 + r1) * 64 + r2) * 64 + r3]) := by
  have f := byte_facts_lead4 q hq
  have c1 := byte_facts_cont r1 h1
  have c2 := byte_facts_cont r2 h2
  have c3 := byte_facts_cont r3 h3
  simp [Decode, decodeOctet, f.1, f.2.1, f.2.2.1, f.2.2.2.1, f.2.2.2.2,
    c1, c2, c3, sl6,
    Nat.mod_eq_of_lt (show q * 64 + r1 < 4294967296 by omega),
    Nat.mod_eq_of_lt (show (q * 64 + r1) * 64 + r2 < 4294967296 by nlinarith),
    Nat.mod_eq_of_lt
      (show ((q * 64 + r1) * 64 + r2) * 64 + r3 < 4294967296 by nlinarith)]

/-! ### Per-range characterization of encodeOne -/

/-- A code point below 0x80 encodes as the single identical byte. -/
theorem encodeOne_ascii (cp : Nat) (h : cp < 0x80) : encodeOne cp = [cp] := by
  have hb : log2n cp ≤ 7 := by
    rw [log2n_le_iff]
    norm_num
    omega
  simp [encodeOne, hb, and_127, Nat.mod_eq_of_lt (show cp < 128 by omega)]

/-- A code point in 0x80–0x7FF encodes as a 2-byte sequence. -/
theorem encodeOne_two (cp : Nat) (hlo : 0x80 ≤ cp) (hhi : cp < 0x800) :
    encodeOne cp = [cp / 64 + 0xC0, cp % 64 + 0x80] := by
  have hb7 : ¬ log2n cp ≤ 7 := by
    rw [log2n_le_iff]
    norm_num
    omega
  have hb11 : log2n cp ≤ 11 := by
    rw [log2n_le_iff]
    norm_num
    omega
  have hq : cp / 64 % 32 = cp / 64 := Nat.mod_eq_of_lt (by omega)
  simp [encodeOne, hb7, hb11, sr6, and_31, and_63, hq]

/-- A non-surrogate code point in 0x800–0xFFFF encodes as a 3-byte
sequence. -/
theorem encodeOne_three (cp : Nat) (hlo : 0x800 ≤ cp) (hhi : cp < 0x10000)
    (hs : ¬(0xD800 ≤ cp ∧ cp ≤ 0xDFFF)) :
    encodeOne cp =
      [cp / 4096 + 0xE0, cp / 64 % 64 + 0x80, cp % 64 + 0x80] := by
  have hb11 : ¬ log2n cp ≤ 11 := by
    rw [log2n_le_iff]
    norm_num
    omega
  have hb16 : log2n cp ≤ 16 := by
    rw [log2n_le_iff]
    norm_num
    omega
  have hb7 : ¬ log2n cp ≤ 7 := by omega
  have hq : cp / 4096 % 16 = cp / 4096 := Nat.mod_eq_of_lt (by omega)
  simp [encodeOne, FIRST_SURROGATE, LAST_SURROGATE, hb7, hb11, hb16, hs,
    sr6, sr12, and_15, and_63, hq]

/-- A surrogate code point encodes as the replacement sequence. -/
theorem encodeOne_surrogate (cp : Nat) (hlo : 0xD800 ≤ cp)
    (hhi : cp ≤ 0xDFFF) :
    encodeOne cp = UTF8_ENCODED_REPLACEMENT_CHARACTER := by
  have hb11 : ¬ log2n cp ≤ 11 := by
    rw [log2n_le_iff]
    norm_num
    omega
  have hb16 : log2n cp ≤ 16 := by
    rw [log2n_le_iff]
    norm_num
    omega
  have hb7 : ¬ log2n cp ≤ 7 := by omega
  simp [encodeOne, FIRST_SURROGATE, LAST_SURROGATE, hb7, hb11, hb16, hlo, hhi]

/-- A code point in 0x10000–0x10FFFF encodes as a 4-byte sequence. -/
theorem encodeOne_four (cp : Nat) (hlo : 0x10000 ≤ cp)
    (hhi : cp ≤ 0x10FFFF) :
    encodeOne cp =
      [cp / 262144 + 0xF0, cp / 4096 % 64 + 0x80, cp / 64 % 64 + 0x80,
       cp % 64 + 0x80] := by
  have hb16 : ¬ log2n cp ≤ 16 := by
    rw [log2n_le_iff]
    norm_num
    omega
  have hb21 : log2n cp ≤ 21 := by
    rw [log2n_le_iff]
    norm_num
    omega
  have hb7 : ¬ log2n cp ≤ 7 := by omega
  have hb11 : ¬ log2n cp ≤ 11 := by omega
  have hq : cp / 262144 % 8 = cp / 262144 := Nat.mod_eq_of_lt (by omega)
  simp [encodeOne, LAST_LEGAL_UNICODE_CODE_POINT, hb7, hb11, hb16, hb21, hhi,
    sr6, sr12, sr18, and_7, and_63, hq]

/-- A code point beyond the last legal one encodes as the replacement
sequence. -/
theorem encodeOne_outOfRange (cp : Nat) (h : 0x10FFFF < cp) :
    encodeOne cp = UTF8_ENCODED_REPLACEMENT_CHARACTER := by
  have hb16 : ¬ log2n cp ≤ 16 := by
    rw [log2n_le_iff]
    norm_num
    omega
  have hb7 : ¬ log2n cp ≤ 7 := by omega
  have hb11 : ¬ log2n cp ≤ 11 := by omega
  have hr : ¬(log2n cp ≤ 21 ∧ cp ≤ LAST_LEGAL_UNICODE_CODE_POINT) := by
    rw [LAST_LEGAL_UNICODE_CODE_POINT]
    omega
  simp [encodeOne, hb7, hb11, hb16, hr]

/-! ### Decode over concatenation, chunking, and the round trip -/

/-- One Decode call over concatenated input behaves like two calls in
sequence on the same instance, with the outputs concatenated. -/
theorem Decode_append (a : List Nat) : ∀ (s : Impl) (b : List Nat),
    Decode s (a ++ b) =
      ((Decode (Decode s a).1 b).1,
       (Decode s a).2 ++ (Decode (Decode s a).1 b).2) := by
  induction a with
  | nil =>
    intro s b
    simp [Decode]
  | cons x xs ih =>
    intro s b
    simp [Decode, ih]

/-- Calling Decode once per chunk on one instance is the same as one
call over the concatenated bytes, from any starting state. -/
theorem decodeChunks_eq (chunks : List (List Nat)) : ∀ s : Impl,
    decodeChunks s chunks = Decode s chunks.flatten := by
  induction chunks with
  | nil =>
    intro s
    simp [decodeChunks, Decode]
  | cons c cs ih =>
    intro s
    simp [decodeChunks, List.flatten, Decode_append, ih]

/-- Decoding the encoding of one valid scalar value from a fresh
instance emits exactly that value and returns to the fresh state. -/
theorem decode_encodeOne (cp : Nat) (hmax : cp ≤ 0x10FFFF)
    (hs : ¬(0xD800 ≤ cp ∧ cp ≤ 0xDFFF)) :
    Decode ⟨0, 0⟩ (encodeOne cp) = (⟨0, 0⟩, [cp]) := by
  by_cases h1 : cp < 0x80
  · rw [encodeOne_ascii cp h1]
    have hf : cp &&& 0x80 = 0 := by
      have : cp % 256 = cp := Nat.mod_eq_of_lt (by omega)
      have hb : ∀ b < 128, b &&& 0x80 = 0 := by decide
      exact hb cp (by omega)
    simp [Decode, decodeOctet, hf]
  · by_cases h2 : cp < 0x800
    · rw [encodeOne_two cp (by omega) h2]
      have := decode_seq2 (cp / 64) (cp % 64) (by omega) (by omega)
      rwa [show cp / 64 * 64 + cp % 64 = cp by omega] at this
    · by_cases h3 : cp < 0x10000
      · rw [encodeOne_three cp (by omega) h3 hs]
        have := decode_seq3 (cp / 4096) (cp / 64 % 64) (cp % 64)
          (by omega) (by omega) (by omega)
        rwa [show (cp / 4096 * 64 + cp / 64 % 64) * 64 + cp % 64 = cp
          by omega] at this
      · rw [encodeOne_four cp (by omega) hmax]
        have := decode_seq4 (cp / 262144) (cp / 4096 % 64) (cp / 64 % 64)
          (cp % 64) (by omega) (by omega) (by omega) (by omega)
        rwa [show ((cp / 262144 * 64 + cp / 4096 % 64) * 64 + cp / 64 % 64)
            * 64 + cp % 64 = cp by omega] at this

/-! ### Claim theorems -/

/-- C1: for every sequence S of valid Unicode scalar values (each at
most 0x10FFFF and not in the surrogate range 0xD800–0xDFFF), decoding
the encoding of S on a fresh codec instance returns exactly S, leaving
the instance fresh again. -/
theorem claim_C1_roundtrip (S : List Nat)
    (h : ∀ cp ∈ S, cp ≤ 0x10FFFF ∧ ¬(0xD800 ≤ cp ∧ cp ≤ 0xDFFF)) :
    Decode ⟨0, 0⟩ (Encode S) = (⟨0, 0⟩, S) := by
  induction S with
  | nil => simp [Encode, Decode]
  | cons cp rest ih =>
    have hcp := h cp (by simp)
    have hrest : ∀ c ∈ rest, c ≤ 0x10FFFF ∧ ¬(0xD800 ≤ c ∧ c ≤ 0xDFFF) :=
      fun c hc => h c (by simp [hc])
    rw [Encode, Decode_append, decode_encodeOne cp hcp.1 hcp.2, ih hrest]
    simp

theorem claim_C1_roundtrip_witness :
    (∀ cp ∈ [0x48, 0x2262, 0xD7FF, 0x10FFFF],
      cp ≤ 0x10FFFF ∧ ¬(0xD800 ≤ cp ∧ cp ≤ 0xDFFF)) ∧
    Decode ⟨0, 0⟩ (Encode [0x48, 0x2262, 0xD7FF, 0x10FFFF]) =
      (⟨0, 0⟩, [0x48, 0x2262, 0xD7FF, 0x10FFFF]) :=
  ⟨by decide, claim_C1_roundtrip _ (by decide)⟩

/-- C2: for every byte sequence split into consecutive non-empty
chunks, calling Decode once per chunk in order on one codec instance
yields, concatenated, exactly what one Decode call over the whole
sequence yields on a fresh instance (and the same final state). -/
theorem claim_C2_chunk_invariance (chunks : List (List Nat))
    (_hne : ∀ c ∈ chunks, c ≠ []) :
    decodeChunks ⟨0, 0⟩ chunks = Decode ⟨0, 0⟩ chunks.flatten :=
  decodeChunks_eq chunks ⟨0, 0⟩

theorem claim_C2_chunk_invariance_witness :
    (∀ c ∈ [[0xE6], [0x97], [0xA5]], c ≠ []) ∧
    decodeChunks ⟨0, 0⟩ [[0xE6], [0x97], [0xA5]] =
      Decode ⟨0, 0⟩ (List.flatten [[0xE6], [0x97], [0xA5]]) :=
  ⟨by decide, claim_C2_chunk_invariance _ (by decide)⟩

/-- C3: Encode is total and never fails: a surrogate or out-of-range
code point is replaced by exactly the bytes 0xEF 0xBF 0xBD, and every
valid scalar value gets its normal UTF-8 bytes (the RFC 3629 layout,
here `specUtf8Bytes`). -/
theorem claim_C3_encode_substitution (cp : Nat) :
    (((0xD800 ≤ cp ∧ cp ≤ 0xDFFF) ∨ 0x10FFFF < cp) →
      encodeOne cp = [0xEF, 0xBF, 0xBD]) ∧
    ((cp ≤ 0x10FFFF ∧ ¬(0xD800 ≤ cp ∧ cp ≤ 0xDFFF)) →
      encodeOne cp = specUtf8Bytes cp) := by
  constructor
  · rintro (⟨h1, h2⟩ | h)
    · rw [encodeOne_surrogate cp h1 h2]
      rfl
    · rw [encodeOne_outOfRange cp h]
      rfl
  · rintro ⟨hmax, hs⟩
    by_cases h1 : cp < 0x80
    · rw [encodeOne_ascii cp h1, specUtf8Bytes,
        if_pos (show cp ≤ 0x7F by omega)]
    · by_cases h2 : cp < 0x800
      · rw [encodeOne_two cp (by omega) h2, specUtf8Bytes,
          if_neg (by omega), if_pos (by omega)]
      · by_cases h3 : cp < 0x10000
        · rw [encodeOne_three cp (by omega) h3 hs, specUtf8Bytes,
            if_neg (by omega), if_neg (by omega), if_pos (by omega)]
        · rw [encodeOne_four cp (by omega) hmax, specUtf8Bytes,
            if_neg (by omega), if_neg (by omega), if_neg (by omega)]

theorem claim_C3_encode_substitution_witness :
    (((0xD800 ≤ (0xD800 : Nat) ∧ (0xD800 : Nat) ≤ 0xDFFF) ∨
        0x10FFFF < (0xD800 : Nat)) ∧
      encodeOne 0xD800 = [0xEF, 0xBF, 0xBD]) ∧
    (((0x2262 : Nat) ≤ 0x10FFFF ∧
        ¬((0xD800 : Nat) ≤ 0x2262 ∧ (0x2262 : Nat) ≤ 0xDFFF)) ∧
      encodeOne 0x2262 = specUtf8Bytes 0x2262) :=
  ⟨⟨by decide, (claim_C3_encode_substitution 0xD800).1 (by decide)⟩,
   ⟨by decide, (claim_C3_encode_substitution 0x2262).2 (by decide)⟩⟩

/-- C4: the number of bytes Encode emits for one code point is 1 for
values up to 0x7F, 2 for 0x80–0x7FF, 3 for 0x800–0xFFFF excluding
surrogates, 4 for 0x10000–0x10FFFF, and 3 (the fixed replacement
sequence) for surrogates and values beyond 0x10FFFF. -/
theorem claim_C4_encode_length (cp : Nat) :
    (cp ≤ 0x7F → (encodeOne cp).length = 1) ∧
    (0x80 ≤ cp ∧ cp ≤ 0x7FF → (encodeOne cp).length = 2) ∧
    (0x800 ≤ cp ∧ cp ≤ 0xFFFF ∧ ¬(0xD800 ≤ cp ∧ cp ≤ 0xDFFF) →
      (encodeOne cp).length = 3) ∧
    (0x10000 ≤ cp ∧ cp ≤ 0x10FFFF → (encodeOne cp).length = 4) ∧
    ((0xD800 ≤ cp ∧ cp ≤ 0xDFFF) ∨ 0x10FFFF < cp →
      encodeOne cp = UTF8_ENCODED_REPLACEMENT_CHARACTER ∧
      (encodeOne cp).length = 3) := by
  refine ⟨?_, ?_, ?_, ?_, ?_⟩
  · intro h
    rw [encodeOne_ascii cp (by omega)]
    rfl
  · rintro ⟨h1, h2⟩
    rw [encodeOne_two cp h1 (by omega)]
    rfl
  · rintro ⟨h1, h2, h3⟩
    rw [encodeOne_three cp h1 (by omega) h3]
    rfl
  · rintro ⟨h1, h2⟩
    rw [encodeOne_four cp h1 h2]
    rfl
  · rintro (⟨h1, h2⟩ | h)
    · rw [encodeOne_surrogate cp h1 h2]
      exact ⟨rfl, rfl⟩
    · rw [encodeOne_outOfRange cp h]
      exact ⟨rfl, rfl⟩

theorem claim_C4_encode_length_witness :
    ((0x800 ≤ (0x65E5 : Nat) ∧ (0x65E5 : Nat) ≤ 0xFFFF ∧
        ¬((0xD800 : Nat) ≤ 0x65E5 ∧ (0x65E5 : Nat) ≤ 0xDFFF)) ∧
      (encodeOne 0x65E5).length = 3) ∧
    ((0x10000 ≤ (0x233B4 : Nat) ∧ (0x233B4 : Nat) ≤ 0x10FFFF) ∧
      (encodeOne 0x233B4).length = 4) :=
  ⟨⟨by decide, (claim_C4_encode_length 0x65E5).2.2.1 (by decide)⟩,
   ⟨by decide, (claim_C4_encode_length 0x233B4).2.2.2.1 (by decide)⟩⟩

set_option maxRecDepth 4096 in
/-- C5: an idle decoder receiving a byte that is neither an ASCII byte
nor a 110xxxxx, 1110xxxx, or 11110xxx lead byte — i.e. a stray
continuation byte 10xxxxxx or an invalid lead byte 11111xxx — emits
exactly one replacement code point U+FFFD and keeps its (idle) state
unchanged. -/
theorem claim_C5_invalid_lead (s : Impl) (b : Nat) (hb : b < 256)
    (hidle : s.numBytesRemainingToDecode = 0)
    (hstray : b &&& 0xC0 = 0x80 ∨ b &&& 0xF8 = 0xF8) :
    decodeOctet s b = (s, [REPLACEMENT_CHARACTER]) := by
  have facts : ∀ x < 256, (x &&& 0xC0 = 0x80 ∨ x &&& 0xF8 = 0xF8) →
      ¬(x &&& 0x80 = 0) ∧ ¬(x &&& 0xE0 = 0xC0) ∧ ¬(x &&& 0xF0 = 0xE0) ∧
      ¬(x &&& 0xF8 = 0xF0) := by decide
  have f := facts b hb hstray
  simp [decodeOctet, hidle, f.1, f.2.1, f.2.2.1, f.2.2.2]

theorem claim_C5_invalid_lead_witness :
    ((0x80 : Nat) < 256 ∧ (⟨0, 0⟩ : Impl).numBytesRemainingToDecode = 0 ∧
      ((0x80 : Nat) &&& 0xC0 = 0x80 ∨ (0x80 : Nat) &&& 0xF8 = 0xF8)) ∧
    decodeOctet ⟨0, 0⟩ 0x80 = (⟨0, 0⟩, [REPLACEMENT_CHARACTER]) ∧
    decodeOctet ⟨0, 0⟩ 0xF8 = (⟨0, 0⟩, [REPLACEMENT_CHARACTER]) :=
  ⟨⟨by decide, by decide, by decide⟩,
   claim_C5_invalid_lead ⟨0, 0⟩ 0x80 (by decide) (by decide) (by decide),
   claim_C5_invalid_lead ⟨0, 0⟩ 0xF8 (by decide) (by decide) (by decide)⟩

/-- C6: a mid-sequence decoder processes every incoming byte, however
formed, by multiplying the accumulator by 64 (shift left six bits) and
adding the byte's low six bits, and by decrementing the continuation
count; when the count reaches zero the accumulated value is emitted as
one code point and the decoder returns to the idle state.  The bound
on the accumulator rules out uint32 wrap-around; every reachable state
satisfies it. -/
theorem claim_C6_midsequence (s : Impl) (b : Nat)
    (hmid : s.numBytesRemainingToDecode ≠ 0)
    (hacc : s.currentCharacterBeingDecoded < 0x4000000) :
    decodeOctet s b =
      if s.numBytesRemainingToDecode = 1 then
        (⟨0, 0⟩, [s.currentCharacterBeingDecoded * 64 + b % 64])
      else
        (⟨s.currentCharacterBeingDecoded * 64 + b % 64,
          s.numBytesRemainingToDecode - 1⟩, []) := by
  have hm : (s.currentCharacterBeingDecoded * 64 + b % 64) % 4294967296 =
      s.currentCharacterBeingDecoded * 64 + b % 64 :=
    Nat.mod_eq_of_lt (by omega)
  rw [decodeOctet, if_neg hmid]
  simp only [sl6, and_63, hm]
  by_cases h1 : s.numBytesRemainingToDecode = 1
  · rw [if_pos (by omega), if_pos h1]
  · rw [if_neg (by omega), if_neg h1]

theorem claim_C6_midsequence_witness :
    ((⟨407, 1⟩ : Impl).numBytesRemainingToDecode ≠ 0 ∧
      (⟨407, 1⟩ : Impl).currentCharacterBeingDecoded < 0x4000000) ∧
    decodeOctet ⟨407, 1⟩ 0xA5 =
      (if (⟨407, 1⟩ : Impl).numBytesRemainingToDecode = 1 then
        ((⟨0, 0⟩ : Impl),
         [(⟨407, 1⟩ : Impl).currentCharacterBeingDecoded * 64 + 0xA5 % 64])
      else
        (⟨(⟨407, 1⟩ : Impl).currentCharacterBeingDecoded * 64 + 0xA5 % 64,
          (⟨407, 1⟩ : Impl).numBytesRemainingToDecode - 1⟩, [])) :=
  ⟨⟨by decide, by decide⟩,
   claim_C6_midsequence ⟨407, 1⟩ 0xA5 (by decide) (by decide)⟩

set_option maxRecDepth 4096 in
/-- C7: Decode performs no surrogate-range or maximum-code-point
validation: a well-formed 3-byte or 4-byte sequence whose assembled
value is a surrogate or exceeds 0x10FFFF still makes Decode emit that
assembled value itself, never the replacement character. -/
theorem claim_C7_decode_no_validation :
    (∀ b1 b2 b3 : Nat, b1 < 256 → b2 < 256 → b3 < 256 →
      b1 &&& 0xF0 = 0xE0 → b2 &&& 0xC0 = 0x80 → b3 &&& 0xC0 = 0x80 →
      ∀ v, v = (b1 % 16 * 64 + b2 % 64) * 64 + b3 % 64 →
        ((0xD800 ≤ v ∧ v ≤ 0xDFFF) ∨ 0x10FFFF < v) →
        Decode ⟨0, 0⟩ [b1, b2, b3] = (⟨0, 0⟩, [v])) ∧
    (∀ b1 b2 b3 b4 : Nat, b1 < 256 → b2 < 256 → b3 < 256 → b4 < 256 →
      b1 &&& 0xF8 = 0xF0 → b2 &&& 0xC0 = 0x80 → b3 &&& 0xC0 = 0x80 →
      b4 &&& 0xC0 = 0x80 →
      ∀ v, v = ((b1 % 8 * 64 + b2 % 64) * 64 + b3 % 64) * 64 + b4 % 64 →
        ((0xD800 ≤ v ∧ v ≤ 0xDFFF) ∨ 0x10FFFF < v) →
        Decode ⟨0, 0⟩ [b1, b2, b3, b4] = (⟨0, 0⟩, [v])) := by
  have hd3 : ∀ x < 256, x &&& 0xF0 = 0xE0 → x = x % 16 + 0xE0 := by decide
  have hd4 : ∀ x < 256, x &&& 0xF8 = 0xF0 → x = x % 8 + 0xF0 := by decide
  have hdc : ∀ x < 256, x &&& 0xC0 = 0x80 → x = x % 64 + 0x80 := by decide
  constructor
  · intro b1 b2 b3 h1 h2 h3 hl hc2 hc3 v hv _hrange
    subst hv
    have := decode_seq3 (b1 % 16) (b2 % 64) (b3 % 64) (by omega) (by omega)
      (by omega)
    rwa [← hd3 b1 h1 hl, ← hdc b2 h2 hc2, ← hdc b3 h3 hc3] at this
  · intro b1 b2 b3 b4 h1 h2 h3 h4 hl hc2 hc3 hc4 v hv _hrange
    subst hv
    have := decode_seq4 (b1 % 8) (b2 % 64) (b3 % 64) (b4 % 64) (by omega)
      (by omega) (by omega) (by omega)
    rwa [← hd4 b1 h1 hl, ← hdc b2 h2 hc2, ← hdc b3 h3 hc3,
      ← hdc b4 h4 hc4] at this

theorem claim_C7_decode_no_validation_witness :
    ((0xD800 ≤ (0xD800 : Nat) ∧ (0xD800 : Nat) ≤ 0xDFFF) ∧
      Decode ⟨0, 0⟩ [0xED, 0xA0, 0x80] = (⟨0, 0⟩, [0xD800])) ∧
    (0x10FFFF < (0x110000 : Nat) ∧
      Decode ⟨0, 0⟩ [0xF4, 0x90, 0x80, 0x80] = (⟨0, 0⟩, [0x110000])) :=
  ⟨⟨by decide,
    claim_C7_decode_no_validation.1 0xED 0xA0 0x80 (by decide) (by decide)
      (by decide) (by decide) (by decide) (by decide) 0xD800 (by decide)
      (by decide)⟩,
   ⟨by decide,
    claim_C7_decode_no_validation.2 0xF4 0x90 0x80 0x80 (by decide)
      (by decide) (by decide) (by decide) (by decide) (by decide) (by decide)
      (by decide) 0x110000 (by decide) (by decide)⟩⟩

/-- C8: AsciiToUnicode returns one code point per input character, in
order, and each returned code point equals the corresponding
character's unsigned byte value (below 256 for 8-bit input). -/
theorem claim_C8_asciiToUnicode (ascii : List Nat)
    (hb : ∀ c ∈ ascii, c < 256) :
    (AsciiToUnicode ascii).length = ascii.length ∧
    (∀ i : Nat, (AsciiToUnicode ascii)[i]? = ascii[i]?) ∧
    ∀ cp ∈ AsciiToUnicode ascii, cp < 256 := by
  refine ⟨by simp [AsciiToUnicode], fun i => by simp [AsciiToUnicode], ?_⟩
  intro cp hcp
  have hmem : cp ∈ ascii := by
    simpa [AsciiToUnicode] using hcp
  exact hb cp hmem

theorem claim_C8_asciiToUnicode_witness :
    (∀ c ∈ [0x48, 0x65, 0x6C, 0x6C, 0x6F], c < 256) ∧
    ((AsciiToUnicode [0x48, 0x65, 0x6C, 0x6C, 0x6F]).length =
        [0x48, 0x65, 0x6C, 0x6C, 0x6F].length ∧
      (∀ i : Nat, (AsciiToUnicode [0x48, 0x65, 0x6C, 0x6C, 0x6F])[i]? =
        [0x48, 0x65, 0x6C, 0x6C, 0x6F][i]?) ∧
      ∀ cp ∈ AsciiToUnicode [0x48, 0x65, 0x6C, 0x6C, 0x6F], cp < 256) :=
  ⟨by decide, claim_C8_asciiToUnicode _ (by decide)⟩

/-- C9: Encode neither reads nor mutates decode state: called on an
instance in any state, both decode-state fields are unchanged by the
call and the returned bytes equal those returned on a fresh
instance. -/
theorem claim_C9_encode_frame (s : Impl) (codePoints : List Nat) :
    (EncodeOnInstance s codePoints).1.currentCharacterBeingDecoded =
        s.currentCharacterBeingDecoded ∧
    (EncodeOnInstance s codePoints).1.numBytesRemainingToDecode =
        s.numBytesRemainingToDecode ∧
    (EncodeOnInstance s codePoints).2 =
        (EncodeOnInstance ⟨0, 0⟩ codePoints).2 :=
  ⟨rfl, rfl, rfl⟩

set_option maxRecDepth 4096 in
/-- One decode step preserves the reachable-state invariant and emits
only code points below 2 ^ 21. -/
theorem decodeOctet_inv (s : Impl) (b : Nat) (hb : b < 256)
    (hs : DecodeStateInv s) :
    DecodeStateInv (decodeOctet s b).1 ∧
    ∀ cp ∈ (decodeOctet s b).2, cp ≤ 0x1FFFFF := by
  obtain ⟨h3, hbound, hzero⟩ := hs
  by_cases h0 : s.numBytesRemainingToDecode = 0
  · rw [decodeOctet, if_pos h0]
    by_cases c1 : b &&& 0x80 = 0
    · rw [if_pos c1]
      have hlt : b < 128 := by
        have hh : ∀ x < 256, x &&& 0x80 = 0 → x < 128 := by decide
        exact hh b hb c1
      refine ⟨⟨h3, hbound, hzero⟩, ?_⟩
      simp only [List.mem_singleton]
      omega
    · rw [if_neg c1]
      by_cases c2 : b &&& 0xE0 = 0xC0
      · rw [if_pos c2]
        refine ⟨⟨by norm_num, ?_, by norm_num⟩, by simp⟩
        have : b &&& 0x1F = b % 32 := and_31 b
        simp only [this, pow_one]
        omega
      · rw [if_neg c2]
        by_cases c3 : b &&& 0xF0 = 0xE0
        · rw [if_pos c3]
          refine ⟨⟨by norm_num, ?_, by norm_num⟩, by simp⟩
          have : b &&& 0x0F = b % 16 := and_15 b
          simp only [this]
          have : b % 16 * 64 ^ 2 ≤ 15 * 64 ^ 2 := by
            have := Nat.mod_lt b (show 0 < 16 by norm_num)
            exact Nat.mul_le_mul_right _ (by omega)
          omega
        · rw [if_neg c3]
          by_cases c4 : b &&& 0xF8 = 0xF0
          · rw [if_pos c4]
            refine ⟨⟨by norm_num, ?_, by norm_num⟩, by simp⟩
            have : b &&& 0x07 = b % 8 := and_7 b
            simp only [this]
            have : b % 8 * 64 ^ 3 ≤ 7 * 64 ^ 3 := by
              have := Nat.mod_lt b (show 0 < 8 by norm_num)
              exact Nat.mul_le_mul_right _ (by omega)
            omega
          · rw [if_neg c4]
            exact ⟨⟨h3, hbound, hzero⟩, by simp [REPLACEMENT_CHARACTER]⟩
  · have hn1 : s.numBytesRemainingToDecode = 1 ∨
        s.numBytesRemainingToDecode = 2 ∨
        s.numBytesRemainingToDecode = 3 := by omega
    have hwrap : (s.currentCharacterBeingDecoded <<< 6 + (b &&& 0x3F))
        % 4294967296 = s.currentCharacterBeingDecoded * 64 + b % 64 := by
      rw [sl6, and_63]
      refine Nat.mod_eq_of_lt ?_
      rcases hn1 with h | h | h <;> rw [h] at hbound <;> norm_num at hbound <;>
        omega
    rcases hn1 with h | h | h
    · rw [h] at hbound
      norm_num at hbound
      simp only [decodeOctet, if_neg h0, h, hwrap]
      norm_num
      constructor
      · exact ⟨by norm_num, by norm_num, fun _ => rfl⟩
      · omega
    · rw [h] at hbound
      norm_num at hbound
      simp only [decodeOctet, if_neg h0, h, hwrap]
      norm_num
      refine ⟨by norm_num, ?_, by norm_num⟩
      norm_num
      omega
    · rw [h] at hbound
      norm_num at hbound
      simp only [decodeOctet, if_neg h0, h, hwrap]
      norm_num
      refine ⟨by norm_num, ?_, by norm_num⟩
      norm_num
      omega

/-- A whole Decode call preserves the reachable-state invariant and
emits only code points below 2 ^ 21. -/
theorem Decode_inv (bytes : List Nat) : ∀ s : Impl,
    (∀ b ∈ bytes, b < 256) → DecodeStateInv s →
    DecodeStateInv (Decode s bytes).1 ∧
    ∀ cp ∈ (Decode s bytes).2, cp ≤ 0x1FFFFF := by
  induction bytes with
  | nil =>
    intro s _ hs
    exact ⟨by simpa [Decode] using hs, by simp [Decode]⟩
  | cons b rest ih =>
    intro s hb hs
    have hstep := decodeOctet_inv s b (hb b (by simp)) hs
    have hrest := ih (decodeOctet s b).1 (fun x hx => hb x (by simp [hx]))
      hstep.1
    refine ⟨by simpa [Decode] using hrest.1, ?_⟩
    intro cp hcp
    simp only [Decode, List.mem_append] at hcp
    rcases hcp with h | h
    · exact hstep.2 cp h
    · exact hrest.2 cp h

/-- C10: every code point Decode ever emits fits in 21 bits (is at
most 0x1FFFFF), over every byte sequence delivered in any number of
Decode calls to one instance that starts fresh. -/
theorem claim_C10_output_bound (chunks : List (List Nat))
    (hb : ∀ c ∈ chunks, ∀ b ∈ c, b < 256) :
    ∀ cp ∈ (decodeChunks ⟨0, 0⟩ chunks).2, cp ≤ 0x1FFFFF := by
  rw [decodeChunks_eq]
  have hflat : ∀ b ∈ chunks.flatten, b < 256 := by
    intro b hbm
    rw [List.mem_flatten] at hbm
    obtain ⟨c, hc, hbc⟩ := hbm
    exact hb c hc b hbc
  have hinv : DecodeStateInv ⟨0, 0⟩ := ⟨by norm_num, by norm_num, fun _ => rfl⟩
  exact (Decode_inv chunks.flatten ⟨0, 0⟩ hflat hinv).2

theorem claim_C10_output_bound_witness :
    (∀ c ∈ [[0xF7], [0xBF], [0xBF, 0xBF]], ∀ b ∈ c, b < 256) ∧
    ∀ cp ∈ (decodeChunks ⟨0, 0⟩ [[0xF7], [0xBF], [0xBF, 0xBF]]).2,
      cp ≤ 0x1FFFFF :=
  ⟨by decide, claim_C10_output_bound _ (by decide)⟩

end Utf8
